import Mathlib

/-!
# Verification of the chatbot dialogue-engine core

A shallow embedding of the core of the CppND memory-management chatbot
(`src/chatbot.cpp`, `src/graphnode.cpp`) together with proofs about it.

Strings are modelled as `List Char`; C++ `size_t`/`int` values occurring here
are small non-negative counts and are modelled as `Nat`.
-/

namespace Chatbot

/-- Models `::toupper` in the "C" locale as used by
`std::transform(s.begin(), s.end(), s.begin(), ::toupper)` in
`ChatBot::ComputeLevenshteinDistance`: the letters `a`-`z` are mapped to
`A`-`Z`, every other character is unchanged. -/
def cToUpper (c : Char) : Char :=
  if 'a' ≤ c ∧ c ≤ 'z' then Char.ofNat (c.toNat - 32) else c

/-- Uppercases a whole string, modelling the two `std::transform` calls at the
top of `ChatBot::ComputeLevenshteinDistance`. -/
def strUpper (s : List Char) : List Char := s.map cToUpper

/-- The inner loop of `ChatBot::ComputeLevenshteinDistance` (the loop over
`it2`/`j`).  Arguments: `c1` is the current character of `s1` (`*it1`); `cs`
is the remaining portion of `s2`; `costs` holds the previous row values at
positions `j+1 .. n` (so `costs.head` is the C++ variable `upper` read from
`costs[j+1]`); `corner` is the previous row value at position `j`; `left` is
the freshly written current-row value at position `j` (the C++ `costs[j]` at
the moment it is read).  Returns the new row values at positions `j+1 .. n`. -/
def levInner (c1 : Char) : List Char → List Nat → Nat → Nat → List Nat
  | c2 :: cs, upper :: rest, corner, left =>
      let newv := if c1 = c2 then corner else min left (min upper corner) + 1
      newv :: levInner c1 cs rest upper newv
  | _, _, _, _ => []

/-- The outer loop of `ChatBot::ComputeLevenshteinDistance` (the loop over
`it1`/`i`).  `cs1` is the remaining portion of `s1`, `s2` the full second
string, `row` the current cost row (`costs[0..n]`), `i` the current index.
Each iteration writes `costs[0] = i + 1`, takes `corner = i` (the old
`costs[0]`), and rewrites the rest of the row via the inner loop. -/
def levOuter : List Char → List Char → List Nat → Nat → List Nat
  | [], _, row, _ => row
  | c1 :: cs1, s2, row, i =>
      levOuter cs1 s2 ((i + 1) :: levInner c1 s2 row.tail i (i + 1)) (i + 1)

/-- The body of `ChatBot::ComputeLevenshteinDistance` after the `::toupper`
normalization: early returns for an empty string, then the rolling cost row
(`size_t *costs = new size_t[n+1]`, initialized to `costs[k] = k`), the two
nested loops, and the final read of `costs[n]`. -/
def levImpl (u1 u2 : List Char) : Nat :=
  let m := u1.length
  let n := u2.length
  if m = 0 then n
  else if n = 0 then m
  else (levOuter u1 u2 (List.range (n + 1)) 0).getD n 0

/-- `ChatBot::ComputeLevenshteinDistance(s1, s2)`: both strings are
uppercased, then the rolling-row dynamic program runs on the normalized
strings. -/
def ComputeLevenshteinDistance (s1 s2 : List Char) : Nat :=
  levImpl (strUpper s1) (strUpper s2)

/-- The classic Levenshtein edit-distance recurrence, written from the spec
(§4.1): distance to/from the empty string is the other string's length, and
for non-empty strings either the heads match (cost 0 on the diagonal) or one
of substitution / insertion / deletion is paid. -/
def levenshteinSpec : List Char → List Char → Nat
  | [], ys => ys.length
  | xs, [] => xs.length
  | x :: xs, y :: ys =>
      if x = y then levenshteinSpec xs ys
      else 1 + min (levenshteinSpec xs (y :: ys))
              (min (levenshteinSpec (x :: xs) ys) (levenshteinSpec xs ys))
termination_by xs ys => xs.length + ys.length
decreasing_by all_goals simp_arith

/-- `Aligns a b n`: the string `a` can be transformed into `b` using exactly
`n` single-character insertions, deletions and substitutions (spec §4.1:
"minimum number of single-character insertions, deletions, or substitutions
to transform `a` into `b`", before taking the minimum).  Matching characters
are copied for free. -/
inductive Aligns : List Char → List Char → Nat → Prop where
  | nil : Aligns [] [] 0
  | eq {x : Char} {xs ys : List Char} {n : Nat} :
      Aligns xs ys n → Aligns (x :: xs) (x :: ys) n
  | sub {x y : Char} {xs ys : List Char} {n : Nat} :
      x ≠ y → Aligns xs ys n → Aligns (x :: xs) (y :: ys) (n + 1)
  | del {x : Char} {xs ys : List Char} {n : Nat} :
      Aligns xs ys n → Aligns (x :: xs) ys (n + 1)
  | ins {y : Char} {xs ys : List Char} {n : Nat} :
      Aligns xs ys n → Aligns xs (y :: ys) (n + 1)

theorem levenshteinSpec_nil_left (ys : List Char) : levenshteinSpec [] ys = ys.length := by
  cases ys <;> simp [levenshteinSpec]

theorem levenshteinSpec_nil_right (xs : List Char) : levenshteinSpec xs [] = xs.length := by
  cases xs <;> simp [levenshteinSpec]

theorem levenshteinSpec_cons_cons (x y : Char) (xs ys : List Char) :
    levenshteinSpec (x :: xs) (y :: ys) =
      if x = y then levenshteinSpec xs ys
      else 1 + min (levenshteinSpec xs (y :: ys))
              (min (levenshteinSpec (x :: xs) ys) (levenshteinSpec xs ys)) := by
  rw [levenshteinSpec]

theorem aligns_nil_left : ∀ ys : List Char, Aligns [] ys ys.length
  | [] => .nil
  | _ :: ys => .ins (aligns_nil_left ys)

theorem aligns_nil_right : ∀ xs : List Char, Aligns xs [] xs.length
  | [] => .nil
  | _ :: xs => .del (aligns_nil_right xs)

/-- Achievability: the value of the recurrence is realized by some edit
script. -/
theorem aligns_levenshteinSpec : ∀ (xs ys : List Char), Aligns xs ys (levenshteinSpec xs ys)
  | [], ys => by rw [levenshteinSpec_nil_left]; exact aligns_nil_left ys
  | x :: xs, [] => by rw [levenshteinSpec_nil_right]; exact aligns_nil_right (x :: xs)
  | x :: xs, y :: ys => by
      rw [levenshteinSpec_cons_cons]
      by_cases h : x = y
      · subst h
        rw [if_pos rfl]
        exact .eq (aligns_levenshteinSpec xs ys)
      · rw [if_neg h]
        rcases Nat.le_total (levenshteinSpec xs (y :: ys))
            (min (levenshteinSpec (x :: xs) ys) (levenshteinSpec xs ys)) with h1 | h1
        · rw [Nat.min_eq_left h1, Nat.add_comm]
          exact .del (aligns_levenshteinSpec xs (y :: ys))
        · rw [Nat.min_eq_right h1]
          rcases Nat.le_total (levenshteinSpec (x :: xs) ys) (levenshteinSpec xs ys) with h2 | h2
          · rw [Nat.min_eq_left h2, Nat.add_comm]
            exact .ins (aligns_levenshteinSpec (x :: xs) ys)
          · rw [Nat.min_eq_right h2, Nat.add_comm]
            exact .sub h (aligns_levenshteinSpec xs ys)
termination_by xs ys => xs.length + ys.length
decreasing_by all_goals simp_arith

/-- Removing the head of the second string changes the cost of an edit script
by at most one. -/
theorem aligns_drop_snd {xs zs : List Char} {n : Nat} (h : Aligns xs zs n) :
    ∀ {y : Char} {ys : List Char}, zs = y :: ys → ∃ k, k ≤ n + 1 ∧ Aligns xs ys k := by
  induction h with
  | nil => intro y ys heq; cases heq
  | eq h _ =>
      intro y ys heq
      cases heq
      exact ⟨_, Nat.le_refl _, .del h⟩
  | sub hne h _ =>
      intro y ys heq
      cases heq
      exact ⟨_, Nat.le_succ _, .del h⟩
  | del _ ih =>
      intro y ys heq
      obtain ⟨k, hk, ha⟩ := ih heq
      exact ⟨k + 1, by omega, .del ha⟩
  | ins h _ =>
      intro y ys heq
      cases heq
      exact ⟨_, by omega, h⟩

/-- Removing the head of the first string changes the cost of an edit script
by at most one. -/
theorem aligns_drop_fst {zs ys : List Char} {n : Nat} (h : Aligns zs ys n) :
    ∀ {x : Char} {xs : List Char}, zs = x :: xs → ∃ k, k ≤ n + 1 ∧ Aligns xs ys k := by
  induction h with
  | nil => intro x xs heq; cases heq
  | eq h _ =>
      intro x xs heq
      cases heq
      exact ⟨_, Nat.le_refl _, .ins h⟩
  | sub hne h _ =>
      intro x xs heq
      cases heq
      exact ⟨_, Nat.le_succ _, .ins h⟩
  | ins _ ih =>
      intro x xs heq
      obtain ⟨k, hk, ha⟩ := ih heq
      exact ⟨k + 1, by omega, .ins ha⟩
  | del h _ =>
      intro x xs heq
      cases heq
      exact ⟨_, by omega, h⟩

/-- Minimality: the recurrence value is a lower bound on the cost of every
edit script. -/
theorem levenshteinSpec_le_of_aligns :
    ∀ (xs ys : List Char) (n : Nat), Aligns xs ys n → levenshteinSpec xs ys ≤ n
  | [], [], _, h => by cases h; simp [levenshteinSpec]
  | [], y :: ys, _, h => by
      cases h with
      | ins h =>
          have := levenshteinSpec_le_of_aligns [] ys _ h
          rw [levenshteinSpec_nil_left] at this ⊢
          simp only [List.length_cons]
          omega
  | x :: xs, [], _, h => by
      cases h with
      | del h =>
          have := levenshteinSpec_le_of_aligns xs [] _ h
          rw [levenshteinSpec_nil_right] at this ⊢
          simp only [List.length_cons]
          omega
  | x :: xs, y :: ys, _, h => by
      rw [levenshteinSpec_cons_cons]
      cases h with
      | eq h =>
          rw [if_pos rfl]
          exact levenshteinSpec_le_of_aligns xs ys _ h
      | sub hne h =>
          rw [if_neg hne]
          have hC := levenshteinSpec_le_of_aligns xs ys _ h
          have hmin : min (levenshteinSpec xs (y :: ys))
              (min (levenshteinSpec (x :: xs) ys) (levenshteinSpec xs ys)) ≤
                levenshteinSpec xs ys :=
            Nat.le_trans (Nat.min_le_right _ _) (Nat.min_le_right _ _)
          omega
      | del h =>
          by_cases hxy : x = y
          · subst hxy
            rw [if_pos rfl]
            obtain ⟨k, hk, ha⟩ := aligns_drop_snd h rfl
            have := levenshteinSpec_le_of_aligns xs ys k ha
            omega
          · rw [if_neg hxy]
            have hA := levenshteinSpec_le_of_aligns xs (y :: ys) _ h
            have hmin : min (levenshteinSpec xs (y :: ys))
                (min (levenshteinSpec (x :: xs) ys) (levenshteinSpec xs ys)) ≤
                  levenshteinSpec xs (y :: ys) := Nat.min_le_left _ _
            omega
      | ins h =>
          by_cases hxy : x = y
          · subst hxy
            rw [if_pos rfl]
            obtain ⟨k, hk, ha⟩ := aligns_drop_fst h rfl
            have := levenshteinSpec_le_of_aligns xs ys k ha
            omega
          · rw [if_neg hxy]
            have hB := levenshteinSpec_le_of_aligns (x :: xs) ys _ h
            have hmin : min (levenshteinSpec xs (y :: ys))
                (min (levenshteinSpec (x :: xs) ys) (levenshteinSpec xs ys)) ≤
                  levenshteinSpec (x :: xs) ys :=
              Nat.le_trans (Nat.min_le_right _ _) (Nat.min_le_left _ _)
            omega
termination_by xs ys _ => xs.length + ys.length
decreasing_by all_goals (subst_vars; simp only [List.length_cons]; omega)

/-- Edit scripts reverse direction at the same cost. -/
theorem aligns_swap {xs ys : List Char} {n : Nat} (h : Aligns xs ys n) : Aligns ys xs n := by
  induction h with
  | nil => exact .nil
  | eq _ ih => exact .eq ih
  | sub hne _ ih => exact .sub (Ne.symm hne) ih
  | del _ ih => exact .ins ih
  | ins _ ih => exact .del ih

theorem aligns_snoc_eq {xs ys : List Char} {n : Nat} (c : Char) (h : Aligns xs ys n) :
    Aligns (xs ++ [c]) (ys ++ [c]) n := by
  induction h with
  | nil => exact .eq .nil
  | eq _ ih => exact .eq ih
  | sub hne _ ih => exact .sub hne ih
  | del _ ih => exact .del ih
  | ins _ ih => exact .ins ih

theorem aligns_snoc_sub {xs ys : List Char} {n : Nat} {c d : Char} (hne : c ≠ d)
    (h : Aligns xs ys n) : Aligns (xs ++ [c]) (ys ++ [d]) (n + 1) := by
  induction h with
  | nil => exact .sub hne .nil
  | eq _ ih => exact .eq ih
  | sub hne' _ ih => exact .sub hne' ih
  | del _ ih => exact .del ih
  | ins _ ih => exact .ins ih

theorem aligns_snoc_del {xs ys : List Char} {n : Nat} (c : Char) (h : Aligns xs ys n) :
    Aligns (xs ++ [c]) ys (n + 1) := by
  induction h with
  | nil => exact .del .nil
  | eq _ ih => exact .eq ih
  | sub hne _ ih => exact .sub hne ih
  | del _ ih => exact .del ih
  | ins _ ih => exact .ins ih

theorem aligns_snoc_ins {xs ys : List Char} {n : Nat} (c : Char) (h : Aligns xs ys n) :
    Aligns xs (ys ++ [c]) (n + 1) := by
  induction h with
  | nil => exact .ins .nil
  | eq _ ih => exact .eq ih
  | sub hne _ ih => exact .sub hne ih
  | del _ ih => exact .del ih
  | ins _ ih => exact .ins ih

/-- Reversing both strings preserves edit scripts and their costs. -/
theorem aligns_reverse {xs ys : List Char} {n : Nat} (h : Aligns xs ys n) :
    Aligns xs.reverse ys.reverse n := by
  induction h with
  | nil => exact .nil
  | eq _ ih => simpa only [List.reverse_cons] using aligns_snoc_eq _ ih
  | sub hne _ ih => simpa only [List.reverse_cons] using aligns_snoc_sub hne ih
  | del _ ih => simpa only [List.reverse_cons] using aligns_snoc_del _ ih
  | ins _ ih => simpa only [List.reverse_cons] using aligns_snoc_ins _ ih

theorem levenshteinSpec_reverse (xs ys : List Char) :
    levenshteinSpec xs.reverse ys.reverse = levenshteinSpec xs ys := by
  apply Nat.le_antisymm
  · exact levenshteinSpec_le_of_aligns _ _ _ (aligns_reverse (aligns_levenshteinSpec xs ys))
  · have h := aligns_reverse (aligns_levenshteinSpec xs.reverse ys.reverse)
    rw [List.reverse_reverse, List.reverse_reverse] at h
    exact levenshteinSpec_le_of_aligns _ _ _ h

theorem levenshteinSpec_symm (xs ys : List Char) :
    levenshteinSpec xs ys = levenshteinSpec ys xs := by
  apply Nat.le_antisymm
  · exact levenshteinSpec_le_of_aligns _ _ _ (aligns_swap (aligns_levenshteinSpec ys xs))
  · exact levenshteinSpec_le_of_aligns _ _ _ (aligns_swap (aligns_levenshteinSpec xs ys))

/-- The edit distance never exceeds the longer string's length. -/
theorem aligns_le_max : ∀ xs ys : List Char, ∃ n, n ≤ max xs.length ys.length ∧ Aligns xs ys n
  | [], ys => ⟨ys.length, by simp, aligns_nil_left ys⟩
  | x :: xs, [] => ⟨(x :: xs).length, by simp, aligns_nil_right (x :: xs)⟩
  | x :: xs, y :: ys => by
      obtain ⟨n, hn, ha⟩ := aligns_le_max xs ys
      by_cases h : x = y
      · subst h
        exact ⟨n, by simp only [List.length_cons]; omega, .eq ha⟩
      · exact ⟨n + 1, by simp only [List.length_cons]; omega, .sub h ha⟩

theorem levenshteinSpec_le_max (xs ys : List Char) :
    levenshteinSpec xs ys ≤ max xs.length ys.length := by
  obtain ⟨n, hn, ha⟩ := aligns_le_max xs ys
  exact Nat.le_trans (levenshteinSpec_le_of_aligns _ _ _ ha) hn

/-! ## Correctness of the rolling-row dynamic program

The loop invariant: after the outer loop has consumed the prefix `p` of the
first string, the cost row holds `levenshteinSpec p.reverse q.reverse` for
every prefix `q` of the second string (stated below with `rp = p.reverse` and
the reversed prefixes of `u2` accumulated in `rq`). -/

/-- The portion of the cost row at positions `j+1 .. n`, where `rq` is the
reversed prefix `u2[0..j)` and `cs` is the remaining suffix `u2[j..n)`. -/
def rowSuffix (rp rq cs : List Char) : List Nat :=
  match cs with
  | [] => []
  | y :: cs' => levenshteinSpec rp (y :: rq) :: rowSuffix rp (y :: rq) cs'

theorem levInner_rowSuffix (c1 : Char) :
    ∀ (cs rq rp : List Char),
      levInner c1 cs (rowSuffix rp rq cs) (levenshteinSpec rp rq)
          (levenshteinSpec (c1 :: rp) rq)
        = rowSuffix (c1 :: rp) rq cs := by
  intro cs
  induction cs with
  | nil => intro rq rp; rfl
  | cons y cs' ih =>
      intro rq rp
      have hnew : (if c1 = y then levenshteinSpec rp rq
          else min (levenshteinSpec (c1 :: rp) rq)
            (min (levenshteinSpec rp (y :: rq)) (levenshteinSpec rp rq)) + 1)
          = levenshteinSpec (c1 :: rp) (y :: rq) := by
        rw [levenshteinSpec_cons_cons]
        split
        · rfl
        · omega
      simp only [rowSuffix, levInner]
      rw [hnew, ih (y :: rq) rp]

theorem levOuter_rowSuffix :
    ∀ (cs1 u2 rp : List Char),
      levOuter cs1 u2 (levenshteinSpec rp [] :: rowSuffix rp [] u2) (levenshteinSpec rp [])
        = levenshteinSpec (cs1.reverse ++ rp) [] :: rowSuffix (cs1.reverse ++ rp) [] u2 := by
  intro cs1
  induction cs1 with
  | nil => intro u2 rp; simp [levOuter]
  | cons c1 cs1' ih =>
      intro u2 rp
      have hsucc : levenshteinSpec rp [] + 1 = levenshteinSpec (c1 :: rp) [] := by
        rw [levenshteinSpec_nil_right, levenshteinSpec_nil_right, List.length_cons]
      simp only [levOuter, List.tail_cons]
      rw [hsucc, levInner_rowSuffix c1 u2 [] rp, ih u2 (c1 :: rp)]
      simp [List.reverse_cons, List.append_assoc]

theorem rowSuffix_range' :
    ∀ (cs rq : List Char), rowSuffix [] rq cs = List.range' (rq.length + 1) cs.length := by
  intro cs
  induction cs with
  | nil => intro rq; rfl
  | cons y cs' ih =>
      intro rq
      simp only [rowSuffix, ih (y :: rq), levenshteinSpec_nil_left, List.length_cons,
        List.range'_succ]

theorem rowSuffix_getD :
    ∀ (cs : List Char), cs ≠ [] → ∀ (rq rp : List Char),
      (rowSuffix rp rq cs).getD (cs.length - 1) 0 = levenshteinSpec rp (cs.reverse ++ rq) := by
  intro cs
  induction cs with
  | nil => intro h; exact absurd rfl h
  | cons y cs' ih =>
      intro _ rq rp
      by_cases h' : cs' = []
      · subst h'
        simp [rowSuffix]
      · have hlen : (y :: cs').length - 1 = (cs'.length - 1) + 1 := by
          cases cs' with
          | nil => exact absurd rfl h'
          | cons a l => simp
        simp only [rowSuffix]
        rw [hlen, List.getD_cons_succ, ih h' (y :: rq) rp]
        simp [List.reverse_cons, List.append_assoc]

theorem levImpl_eq_spec (u1 u2 : List Char) : levImpl u1 u2 = levenshteinSpec u1 u2 := by
  by_cases h1 : u1.length = 0
  · rw [List.length_eq_zero] at h1
    subst h1
    simp [levImpl, levenshteinSpec_nil_left]
  · by_cases h2 : u2.length = 0
    · rw [List.length_eq_zero] at h2
      subst h2
      simp [levImpl, levenshteinSpec_nil_right, h1]
    · have h0 : levenshteinSpec [] ([] : List Char) = 0 := by
        rw [levenshteinSpec_nil_left]; rfl
      have hinit : List.range (u2.length + 1) = 0 :: rowSuffix [] [] u2 := by
        rw [List.range_eq_range', List.range'_succ, rowSuffix_range' u2 []]
        rfl
      have hrun := levOuter_rowSuffix u1 u2 []
      rw [h0] at hrun
      unfold levImpl
      rw [if_neg h1, if_neg h2, hinit, hrun]
      simp only [List.append_nil]
      have hn : u2.length = (u2.length - 1) + 1 := by omega
      rw [hn, List.getD_cons_succ,
        rowSuffix_getD u2 (fun hh => h2 (by rw [hh]; rfl)) [] u1.reverse]
      rw [List.append_nil, levenshteinSpec_reverse]

/-- The DP implementation computes the classic Levenshtein distance of the
uppercased strings. -/
theorem computeLevenshteinDistance_eq (a b : List Char) :
    ComputeLevenshteinDistance a b = levenshteinSpec (strUpper a) (strUpper b) :=
  levImpl_eq_spec _ _

/-! ## The dialogue graph and the traversal engine

`GraphNode` is translated from `graphnode.cpp` (`_id`, `_answers`,
`_childEdges`).  Modelled from the spec: `GraphEdge` itself (`graphedge.cpp`
and the headers are not part of the sources at hand; per spec §3 an edge
carries an ordered set of keyword strings and a reference to its target
node, which we represent by the target's numeric id). -/

structure GraphEdge where
  keywords : List (List Char)
  childNode : Nat
deriving DecidableEq

structure GraphNode where
  id : Nat
  answers : List String
  childEdges : List GraphEdge
deriving DecidableEq

/-- `GraphNode::GetNumberOfChildEdges` (accessor for `_childEdges.size()`). -/
def GetNumberOfChildEdges (n : GraphNode) : Nat := n.childEdges.length

/-- `GraphNode::GetChildEdgeAtIndex`: `return _childEdges[index].get();` —
an unchecked `std::vector` subscript, modelled as an optional lookup whose
`none` case stands for the out-of-bounds (undefined-behavior) access. -/
def GetChildEdgeAtIndex (n : GraphNode) (index : Nat) : Option GraphEdge :=
  n.childEdges[index]?

/-- Modelled from the spec: `GraphEdge::GetKeywords` accessor (§3, §4.2). -/
def GetKeywords (e : GraphEdge) : List (List Char) := e.keywords

/-- Modelled from the spec: `GraphEdge::GetChildNode` accessor returning the
edge's target node (represented by its id). -/
def GetChildNode (e : GraphEdge) : Nat := e.childNode

/-- `GraphNode::GetAnswers` accessor for `_answers`. -/
def GetAnswers (n : GraphNode) : List String := n.answers

/-- The `levDists` vector built by the double loop at the top of
`ChatBot::ReceiveMessageFromUser`: one `(edge, distance)` entry per
`(edge, keyword)` pair, in enumeration order. -/
def levDists (n : GraphNode) (message : List Char) : List (GraphEdge × Nat) :=
  n.childEdges.flatMap fun edge =>
    (GetKeywords edge).map fun keyword =>
      (edge, ComputeLevenshteinDistance keyword message)

/-- The same double loop written exactly as in the source: an index loop
`for (size_t i = 0; i < GetNumberOfChildEdges(); ++i)` fetching each edge
through the unchecked accessor `GetChildEdgeAtIndex`.  The result is `none`
as soon as any access is out of bounds. -/
def levDistsIndexed (n : GraphNode) (message : List Char) : Option (List (GraphEdge × Nat)) :=
  (List.range (GetNumberOfChildEdges n)).foldl
    (fun acc i =>
      match acc, GetChildEdgeAtIndex n i with
      | some l, some edge =>
          some (l ++ (GetKeywords edge).map fun keyword =>
            (edge, ComputeLevenshteinDistance keyword message))
      | _, _ => none)
    (some [])

/-- Non-decreasing in the second component: exactly what `std::sort` with the
comparator `a.second < b.second` guarantees about its output. -/
def SortedByDistance (l : List (GraphEdge × Nat)) : Prop :=
  l.Sorted fun a b => a.2 ≤ b.2

/-- The possible results of `ChatBot::ReceiveMessageFromUser`.  `std::sort`
is an unstable sort: the C++ standard guarantees only that the result is
*some* permutation of `levDists` that is ordered by the comparator — the
relative order of entries with equal distances is unspecified.  The relation
therefore holds for `dest` exactly when some standard-conforming run of the
sort makes the cursor move to `dest`: either the pair list is empty and the
destination is the root node, or the destination is the child node of the
head of such a permutation. -/
def ReceiveMessageOutcome (root : Nat) (current : GraphNode) (message : List Char)
    (dest : Nat) : Prop :=
  (levDists current message = [] ∧ dest = root) ∨
  (∃ edge dist rest,
      List.Perm ((edge, dist) :: rest) (levDists current message) ∧
      SortedByDistance ((edge, dist) :: rest) ∧
      dest = GetChildNode edge)

/-- Faults of the C++ runtime relevant to `ChatBot::SetCurrentNode`. -/
inductive CxxFault where
  /-- `std::uniform_int_distribution` constructed with bounds violating its
  precondition `a <= b` — undefined behavior. -/
  | undefinedBehavior
  /-- `std::vector::at` past the end — throws `std::out_of_range`. -/
  | outOfRange
deriving DecidableEq

/-- The answer selection of `ChatBot::SetCurrentNode`, lines 186–193.  The
code constructs a fresh `std::mt19937` seeded with `int(std::time(0))` on
every call; the value the seeded generator feeds through
`std::uniform_int_distribution<int>(0, answers.size() - 1)` is
implementation-defined, so the composite is modelled by an arbitrary
function `draw : seed → upperBound → index` of the wall-clock seed (a
standard-conforming `draw` satisfies `UniformDraw` below).  When `answers`
is empty, `answers.size() - 1` underflows `size_t` and the distribution is
constructed with `a > b`, violating its precondition: undefined behavior,
before `answers.at` is ever reached. -/
def SetCurrentNodeAnswer (draw : Nat → Nat → Nat) (answers : List String)
    (time : Nat) : Except CxxFault String :=
  if answers.length = 0 then
    .error .undefinedBehavior
  else
    match answers[draw time (answers.length - 1)]? with
    | some a => .ok a
    | none => .error .outOfRange

/-- `ChatBot::SetCurrentNode` restricted to its observable output (the
answer sent to the user via `_chatLogic->SendMessageToUser`); the cursor
update `_currentNode = node` is captured by `ReceiveMessageOutcome`. -/
def SetCurrentNode (draw : Nat → Nat → Nat) (node : GraphNode) (time : Nat) :
    Except CxxFault String :=
  SetCurrentNodeAnswer draw (GetAnswers node) time

/-- The in-range contract of `std::uniform_int_distribution<int>(0, hi)`
applied to a generator seeded with `seed`: the drawn index lies in
`[0, hi]`. -/
def UniformDraw (draw : Nat → Nat → Nat) : Prop :=
  ∀ seed hi, draw seed hi ≤ hi

/-- Loop invariant for the index loop of `levDistsIndexed`: after the first
`k` iterations every access has succeeded and the accumulator holds the
pairs of the first `k` edges. -/
theorem levDistsIndexed_take (n : GraphNode) (message : List Char) :
    ∀ k : Nat, k ≤ n.childEdges.length → ∀ init : List (GraphEdge × Nat),
      (List.range k).foldl
        (fun acc i =>
          match acc, GetChildEdgeAtIndex n i with
          | some l, some edge =>
              some (l ++ (GetKeywords edge).map fun keyword =>
                (edge, ComputeLevenshteinDistance keyword message))
          | _, _ => none)
        (some init)
      = some (init ++ (n.childEdges.take k).flatMap fun edge =>
          (GetKeywords edge).map fun keyword =>
            (edge, ComputeLevenshteinDistance keyword message)) := by
  intro k
  induction k with
  | zero => intro _ init; simp
  | succ k ih =>
      intro hk init
      have hklt : k < n.childEdges.length := by omega
      have hget : n.childEdges[k]? = some (n.childEdges[k]) :=
        List.getElem?_eq_getElem hklt
      rw [List.range_succ, List.foldl_append, ih (by omega) init]
      simp only [List.foldl_cons, List.foldl_nil, GetChildEdgeAtIndex, hget]
      rw [List.take_succ, hget]
      simp only [Option.toList_some, List.flatMap_append, List.flatMap_cons, List.flatMap_nil,
        List.append_nil, List.append_assoc]

/-! ## Concrete inputs used by the claims -/

/-- The keyword `"hi"`. -/
def hiK : List Char := ['h', 'i']

/-- The keyword `"hello"`. -/
def helloK : List Char := ['h', 'e', 'l', 'l', 'o']

/-- The user input `"helo"` from the spec's selection example (§8). -/
def heloM : List Char := ['h', 'e', 'l', 'o']

/-- Edge A of the spec's selection example: keyword `"hi"`, target node 1. -/
def edgeA : GraphEdge := ⟨[hiK], 1⟩

/-- Edge B of the spec's selection example: keyword `"hello"`, target node 2. -/
def edgeB : GraphEdge := ⟨[helloK], 2⟩

/-- The root node of the spec's selection example (§8), with edges A and B. -/
def exampleRoot : GraphNode := ⟨0, ["Welcome!"], [edgeA, edgeB]⟩

/-- First-enumerated edge of the tie example: keyword `"hi"`, target 1. -/
def tieEdge1 : GraphEdge := ⟨[hiK], 1⟩

/-- Second-enumerated edge of the tie example: keyword `"hi"`, target 2. -/
def tieEdge2 : GraphEdge := ⟨[hiK], 2⟩

/-- A node with two edges whose keywords are at equal distance from the
input `"hi"`. -/
def tieNode : GraphNode := ⟨0, ["Hi!"], [tieEdge1, tieEdge2]⟩

/-- A leaf node: no outgoing edges. -/
def leafNode : GraphNode := ⟨5, ["Bye!"], []⟩

/-- A node with two answers, used to exhibit time-dependent selection. -/
def twoAnswersNode : GraphNode := ⟨3, ["Hello! This is Chatbot.", "Hi, Chatbot here."], []⟩

/-- A node whose answer list is empty. -/
def emptyAnswersNode : GraphNode := ⟨9, [], []⟩

/-- `"kitten"`. -/
def kittenS : List Char := ['k', 'i', 't', 't', 'e', 'n']

/-- `"sitting"`. -/
def sittingS : List Char := ['s', 'i', 't', 't', 'i', 'n', 'g']

/-! ## The claims -/

/-- Whenever the pair list is non-empty, any destination the code can reach
is the child node of an edge whose distance is the global minimum over all
enumerated `(edge, keyword)` pairs. -/
theorem receiveMessage_selects_min (root : Nat) (current : GraphNode) (message : List Char)
    (dest : Nat) (h : ReceiveMessageOutcome root current message dest)
    (hne : levDists current message ≠ []) :
    ∃ edge dist, (edge, dist) ∈ levDists current message ∧
      (∀ p ∈ levDists current message, dist ≤ p.2) ∧ dest = GetChildNode edge := by
  rcases h with ⟨hnil, _⟩ | ⟨edge, dist, rest, hperm, hsort, hdest⟩
  · exact absurd hnil hne
  · refine ⟨edge, dist, ?_, ?_, hdest⟩
    · exact hperm.subset (List.mem_cons_self _ _)
    · intro p hp
      have hp' : p ∈ (edge, dist) :: rest := hperm.symm.subset hp
      rcases List.mem_cons.mp hp' with heq | hmem
      · subst heq
        exact Nat.le_refl _
      · exact List.rel_of_sorted_cons hsort p hmem

/-- Claim C1.  Refuted on the code: `std::sort` is unstable, so on a node
whose two edges carry keywords at equal distance from the input, both edges'
targets are standard-conforming outcomes of `ReceiveMessageFromUser` — the
first-enumerated pair is *not* guaranteed to win, and the result is not
reproducible across implementations. -/
theorem claim1_tie_break_not_stable :
    ReceiveMessageOutcome 0 tieNode hiK (GetChildNode tieEdge1) ∧
    ReceiveMessageOutcome 0 tieNode hiK (GetChildNode tieEdge2) ∧
    GetChildNode tieEdge1 ≠ GetChildNode tieEdge2 := by
  have hl : levDists tieNode hiK = [(tieEdge1, 0), (tieEdge2, 0)] := by decide
  refine ⟨Or.inr ⟨tieEdge1, 0, [(tieEdge2, 0)], ?_, ?_, rfl⟩,
      Or.inr ⟨tieEdge2, 0, [(tieEdge1, 0)], ?_, ?_, rfl⟩, by decide⟩
  · rw [hl]
  · unfold SortedByDistance
    decide
  · rw [hl]
    exact List.Perm.swap _ _ _
  · unfold SortedByDistance
    decide

/-- Claim C2.  Refuted on the code: the generator is re-seeded from
`std::time(0)` inside every `SetCurrentNode` call and no random source can
be injected, so on a node with two answers there is a standard-conforming
draw under which calls at wall-clock times 0 and 1 return different
responses — two runs with identical inputs need not produce identical
response sequences. -/
theorem claim2_response_depends_on_wall_clock :
    ∃ draw : Nat → Nat → Nat, UniformDraw draw ∧
      SetCurrentNode draw twoAnswersNode 0 ≠ SetCurrentNode draw twoAnswersNode 1 := by
  refine ⟨fun seed hi => min seed hi, fun seed hi => Nat.min_le_right seed hi, ?_⟩
  have h0 : SetCurrentNode (fun seed hi => min seed hi) twoAnswersNode 0 =
      Except.ok "Hello! This is Chatbot." := rfl
  have h1 : SetCurrentNode (fun seed hi => min seed hi) twoAnswersNode 1 =
      Except.ok "Hi, Chatbot here." := rfl
  rw [h0, h1]
  simp

/-- Claim C3.  The code never raises a dedicated `EmptyResponseSet` error:
on a node with an empty answer list `answers.size() - 1` underflows and
`std::uniform_int_distribution<int>(0, -1)` is constructed — undefined
behavior, with nothing surfaced to the caller.  On nodes with a non-empty
answer list the selection does succeed with one of the listed answers. -/
theorem claim3_empty_answer_list_is_undefined_behavior :
    (∀ (draw : Nat → Nat → Nat) (time : Nat),
        SetCurrentNode draw emptyAnswersNode time = .error .undefinedBehavior) ∧
    (∀ (draw : Nat → Nat → Nat) (node : GraphNode) (time : Nat),
        UniformDraw draw → GetAnswers node ≠ [] →
        ∃ a, SetCurrentNode draw node time = .ok a ∧ a ∈ GetAnswers node) := by
  constructor
  · intro draw time
    rfl
  · intro draw node time hdraw hne
    have hlen0 : (GetAnswers node).length ≠ 0 := fun h0 => hne (List.length_eq_zero.mp h0)
    have hidx : draw time ((GetAnswers node).length - 1) < (GetAnswers node).length := by
      have := hdraw time ((GetAnswers node).length - 1)
      omega
    unfold SetCurrentNode SetCurrentNodeAnswer
    rw [if_neg hlen0, List.getElem?_eq_getElem hidx]
    exact ⟨_, rfl, List.getElem_mem hidx⟩

theorem claim3_witness :
    GetAnswers leafNode ≠ [] ∧
    ∃ a, SetCurrentNode (fun _ _ => 0) leafNode 0 = .ok a ∧ a ∈ GetAnswers leafNode :=
  ⟨by decide, claim3_empty_answer_list_is_undefined_behavior.2 (fun _ _ => 0) leafNode 0
      (fun _ _ => Nat.zero_le _) (by decide)⟩

/-- Claim C4.  Every destination the code can reach from a node with a
non-empty pair enumeration is the target of an edge attaining the globally
minimum distance; on the spec's example (edges `"hi"`/`"hello"`, input
`"helo"`) every standard-conforming run moves the cursor to edge B's
target. -/
theorem claim4_selects_global_minimum :
    (∀ (root : Nat) (current : GraphNode) (message : List Char) (dest : Nat),
        ReceiveMessageOutcome root current message dest →
        levDists current message ≠ [] →
        ∃ edge dist, (edge, dist) ∈ levDists current message ∧
          (∀ p ∈ levDists current message, dist ≤ p.2) ∧
          dest = GetChildNode edge) ∧
    (∀ dest : Nat, ReceiveMessageOutcome 0 exampleRoot heloM dest → dest = GetChildNode edgeB) := by
  constructor
  · exact receiveMessage_selects_min
  · intro dest h
    obtain ⟨edge, dist, hmem, hmin, hdest⟩ :=
      receiveMessage_selects_min 0 exampleRoot heloM dest h (by decide)
    have hl : levDists exampleRoot heloM = [(edgeA, 3), (edgeB, 1)] := by decide
    rw [hl] at hmem hmin
    have hB : dist ≤ 1 := hmin (edgeB, 1) (by simp)
    rcases List.mem_cons.mp hmem with heq | hmem'
    · have hd : dist = 3 := congrArg Prod.snd heq
      exact absurd hB (by omega)
    · have heq' : (edge, dist) = (edgeB, 1) := List.mem_singleton.mp hmem'
      have he : edge = edgeB := congrArg Prod.fst heq'
      rw [hdest, he]

theorem claim4_witness :
    ∃ edge dist, (edge, dist) ∈ levDists exampleRoot heloM ∧
      (∀ p ∈ levDists exampleRoot heloM, dist ≤ p.2) ∧
      (2 : Nat) = GetChildNode edge := by
  have houtcome : ReceiveMessageOutcome 0 exampleRoot heloM 2 := by
    refine Or.inr ⟨edgeB, 1, [(edgeA, 3)], ?_, ?_, rfl⟩
    · have hl : levDists exampleRoot heloM = [(edgeA, 3), (edgeB, 1)] := by decide
      rw [hl]
      exact List.Perm.swap _ _ _
    · unfold SortedByDistance
      decide
  exact claim4_selects_global_minimum.1 0 exampleRoot heloM 2 houtcome (by decide)

/-- Claim C5.  A node with no outgoing edges always routes the next
`ReceiveMessageFromUser` call back to the root node, for every input. -/
theorem claim5_leaf_routes_to_root :
    ∀ (root : Nat) (current : GraphNode) (message : List Char) (dest : Nat),
      current.childEdges = [] →
      ReceiveMessageOutcome root current message dest → dest = root := by
  intro root current message dest hleaf h
  have hnil : levDists current message = [] := by simp [levDists, hleaf]
  rcases h with ⟨_, hdest⟩ | ⟨edge, dist, rest, hperm, _, _⟩
  · exact hdest
  · rw [hnil] at hperm
    have hlen := hperm.length_eq
    simp at hlen

theorem claim5_witness : leafNode.childEdges = [] ∧ (7 : Nat) = 7 :=
  ⟨rfl, claim5_leaf_routes_to_root 7 leafNode hiK 7 rfl (Or.inl ⟨rfl, rfl⟩)⟩

/-- Claim C6.  The rolling-row dynamic program equals the classic
Levenshtein recurrence on the case-normalized strings, and that value is
exactly the minimum number of single-character insertions, deletions and
substitutions (least cost of an `Aligns` edit script); the degenerate cases
and `distance("kitten", "sitting") = 3` hold. -/
theorem claim6_levenshtein_refinement :
    (∀ a b : List Char,
        ComputeLevenshteinDistance a b = levenshteinSpec (strUpper a) (strUpper b)) ∧
    (∀ a b : List Char,
        Aligns (strUpper a) (strUpper b) (ComputeLevenshteinDistance a b) ∧
        ∀ n : Nat, Aligns (strUpper a) (strUpper b) n → ComputeLevenshteinDistance a b ≤ n) ∧
    (∀ b : List Char, ComputeLevenshteinDistance [] b = b.length) ∧
    (∀ a : List Char, ComputeLevenshteinDistance a [] = a.length) ∧
    ComputeLevenshteinDistance kittenS sittingS = 3 := by
  refine ⟨computeLevenshteinDistance_eq, fun a b => ⟨?_, ?_⟩, ?_, ?_, by decide⟩
  · rw [computeLevenshteinDistance_eq]
    exact aligns_levenshteinSpec _ _
  · intro n hn
    rw [computeLevenshteinDistance_eq]
    exact levenshteinSpec_le_of_aligns _ _ _ hn
  · intro b
    rw [computeLevenshteinDistance_eq]
    simp [strUpper, levenshteinSpec_nil_left]
  · intro a
    rw [computeLevenshteinDistance_eq]
    simp [strUpper, levenshteinSpec_nil_right]

theorem claim6_witness : ComputeLevenshteinDistance ['a'] ['b'] ≤ 1 := by
  have ha : strUpper ['a'] = ['A'] := by decide
  have hb : strUpper ['b'] = ['B'] := by decide
  have h : Aligns (strUpper ['a']) (strUpper ['b']) 1 := by
    rw [ha, hb]
    exact .sub (by decide) .nil
  exact (claim6_levenshtein_refinement.2.1 ['a'] ['b']).2 1 h

/-- Claim C7.  The matcher normalizes both inputs to upper case before
comparing, so the distance only depends on the uppercased strings; in
particular `distance("Hello", "HELLO") = 0`. -/
theorem claim7_case_insensitive :
    (∀ a b a' b' : List Char, strUpper a = strUpper a' → strUpper b = strUpper b' →
        ComputeLevenshteinDistance a b = ComputeLevenshteinDistance a' b') ∧
    ComputeLevenshteinDistance ['H', 'e', 'l', 'l', 'o'] ['H', 'E', 'L', 'L', 'O'] = 0 := by
  constructor
  · intro a b a' b' h1 h2
    unfold ComputeLevenshteinDistance
    rw [h1, h2]
  · decide

theorem claim7_witness :
    strUpper ['h', 'I'] = strUpper ['H', 'i'] ∧
    ComputeLevenshteinDistance ['h', 'I'] ['x'] = ComputeLevenshteinDistance ['H', 'i'] ['x'] :=
  ⟨by decide, claim7_case_insensitive.1 ['h', 'I'] ['x'] ['H', 'i'] ['x'] (by decide) rfl⟩

/-- Claim C8.  The matcher is symmetric. -/
theorem claim8_symmetric (a b : List Char) :
    ComputeLevenshteinDistance a b = ComputeLevenshteinDistance b a := by
  rw [computeLevenshteinDistance_eq, computeLevenshteinDistance_eq, levenshteinSpec_symm]

/-- Claim C9.  The computed distance never exceeds the length of the longer
string. -/
theorem claim9_bounded_by_longer_length (a b : List Char) :
    ComputeLevenshteinDistance a b ≤ max a.length b.length := by
  rw [computeLevenshteinDistance_eq]
  have h := levenshteinSpec_le_max (strUpper a) (strUpper b)
  simpa [strUpper] using h

/-- Claim C10.  The index loop of `ReceiveMessageFromUser` only ever passes
indices below the child-edge count to the unchecked accessor
`GetChildEdgeAtIndex`: every access succeeds and the loop produces exactly
the direct enumeration of `(edge, keyword)` pairs. -/
theorem claim10_edge_indexing_in_bounds (n : GraphNode) (message : List Char) :
    levDistsIndexed n message = some (levDists n message) := by
  unfold levDistsIndexed levDists GetNumberOfChildEdges
  rw [levDistsIndexed_take n message n.childEdges.length (Nat.le_refl _) []]
  simp

end Chatbot
